import Mathlib

/-
Verification of the entropy computation in
src/experiments/entropy-wasm/src/lib.rs.

The pixel buffer is modelled as a list of natural numbers (the u8 bytes),
the histogram as a count function over the list of quantized luminance
values actually visited, and the f64 entropy accumulation as a real-valued
sum using Real.logb 2.
-/

namespace EntropyWasm

/-- Luminance quantization from lib.rs: (r * 76 + g * 150 + b * 30) >> 8. -/
def grayOf (r g b : Nat) : Nat := (r * 76 + g * 150 + b * 30) >>> 8

/-- Reading byte i of the pixel buffer; u8 values are modelled as Nat. -/
def byteAt (data : List Nat) (i : Nat) : Nat := data.getD i 0

/-- Gray value of the pixel quad starting at byte offset i: uses bytes i, i+1, i+2. -/
def quadGray (data : List Nat) (i : Nat) : Nat :=
  grayOf (byteAt data i) (byteAt data (i + 1)) (byteAt data (i + 2))

/-- RGB triple of pixel number k (byte offset 4*k). -/
def quadRGB (data : List Nat) (k : Nat) : Nat × Nat × Nat :=
  (byteAt data (4 * k), byteAt data (4 * k + 1), byteAt data (4 * k + 2))

/-- Gray value of an RGB triple. -/
def grayTriple (t : Nat × Nat × Nat) : Nat := grayOf t.1 t.2.1 t.2.2

/-- Byte offsets visited and counted by the full scan of calculate_entropy:
i ranges over 0, 4, 8, ... below len, and i is counted iff i + 2 < len. -/
def fullScanOffsets (len : Nat) : List Nat :=
  ((List.range ((len + 3) / 4)).map (fun j => 4 * j)).filter
    (fun i => decide (i + 2 < len))

/-- The quantized gray values counted into the histogram by the full scan. -/
def fullScanGrays (data : List Nat) : List Nat :=
  (fullScanOffsets data.length).map (quadGray data)

/-- The 256-bucket histogram, as the count of each bucket value. -/
def histCount (grays : List Nat) (k : Nat) : Nat := grays.count k

/-- The entropy loop of lib.rs: over the 256 buckets, skip zero counts, and
for each non-zero count accumulate -(p * log2 p) with p = count / total. -/
noncomputable def entropyOfHist (hist : Nat → Nat) (total : Nat) : ℝ :=
  ∑ k ∈ Finset.range 256,
    if 0 < hist k then
      -((hist k : ℝ) / (total : ℝ) * Real.logb 2 ((hist k : ℝ) / (total : ℝ)))
    else 0

/-- calculate_entropy from lib.rs: full scan histogram, denominator width * height. -/
noncomputable def calculate_entropy (data : List Nat) (width height : Nat) : ℝ :=
  entropyOfHist (histCount (fullScanGrays data)) (width * height)

/-- The indices visited by Rust step_by: 0, sr, 2*sr, ... below bound (for sr >= 1). -/
def strideIndices (bound sr : Nat) : List Nat :=
  (List.range ((bound + sr - 1) / sr)).map (fun j => sr * j)

/-- Byte offsets visited and counted by the strided scan: i = (y*width + x)*4 over the
stride grid, counted iff i + 2 < len. -/
def downsampledOffsets (len width height sr : Nat) : List Nat :=
  ((strideIndices height sr).flatMap
    (fun y => (strideIndices width sr).map (fun x => (y * width + x) * 4))).filter
    (fun i => decide (i + 2 < len))

/-- The quantized gray values counted into the histogram by the strided scan. -/
def downsampledGrays (data : List Nat) (width height sr : Nat) : List Nat :=
  (downsampledOffsets data.length width height sr).map (quadGray data)

/-- sample_count of the strided scan: incremented exactly once per counted offset. -/
def sample_count (data : List Nat) (width height sr : Nat) : Nat :=
  (downsampledOffsets data.length width height sr).length

/-- calculate_entropy_downsampled from lib.rs: sample_rate <= 1 delegates to
calculate_entropy; otherwise strided histogram with denominator sample_count. -/
noncomputable def calculate_entropy_downsampled
    (data : List Nat) (width height sr : Nat) : ℝ :=
  if sr ≤ 1 then calculate_entropy data width height
  else entropyOfHist (histCount (downsampledGrays data width height sr))
    (sample_count data width height sr)

/-- The gray values actually counted by calculate_entropy_downsampled on either path. -/
def countedGrays (data : List Nat) (width height sr : Nat) : List Nat :=
  if sr ≤ 1 then fullScanGrays data else downsampledGrays data width height sr

/-- The right shift by 8 is division by 256. -/
lemma grayOf_eq_div (r g b : Nat) : grayOf r g b = (r * 76 + g * 150 + b * 30) / 256 := by
  simp [grayOf, Nat.shiftRight_eq_div_pow]

/-- The quantized luminance of 8-bit channels fits in 8 bits. -/
lemma grayOf_le (r g b : Nat) (hr : r ≤ 255) (hg : g ≤ 255) (hb : b ≤ 255) :
    grayOf r g b ≤ 255 := by
  rw [grayOf_eq_div]; omega

/-- Any byte read from a buffer of u8 values is below 256 (a missing read defaults to 0). -/
lemma byteAt_lt (data : List Nat) (hdata : ∀ x ∈ data, x < 256) (i : Nat) :
    byteAt data i < 256 := by
  unfold byteAt
  by_cases h : i < data.length
  · rw [List.getD_eq_getElem?_getD, List.getElem?_eq_getElem h]
    exact hdata _ (List.getElem_mem h)
  · rw [List.getD_eq_getElem?_getD, List.getElem?_eq_none (by omega)]
    simp

/-- Every gray value computed from a u8 buffer is a valid bucket index. -/
lemma quadGray_lt (data : List Nat) (hdata : ∀ x ∈ data, x < 256) (i : Nat) :
    quadGray data i < 256 := by
  have h := grayOf_le (byteAt data i) (byteAt data (i + 1)) (byteAt data (i + 2))
    (by have := byteAt_lt data hdata i; omega)
    (by have := byteAt_lt data hdata (i + 1); omega)
    (by have := byteAt_lt data hdata (i + 2); omega)
  unfold quadGray
  omega

/-- Membership in the full-scan offsets: exactly the 4-aligned offsets whose three RGB
bytes are in bounds. -/
lemma mem_fullScanOffsets {len i : Nat} :
    i ∈ fullScanOffsets len ↔ i % 4 = 0 ∧ i + 2 < len := by
  unfold fullScanOffsets
  simp only [List.mem_filter, List.mem_map, List.mem_range, decide_eq_true_eq]
  constructor
  · rintro ⟨⟨j, hj, rfl⟩, h2⟩
    exact ⟨by omega, h2⟩
  · rintro ⟨h4, h2⟩
    exact ⟨⟨i / 4, by omega, by omega⟩, h2⟩

/-- When the buffer length is 4*N, 4*N+1 or 4*N+2, the full scan visits and counts
exactly the N offsets 0, 4, ..., 4*(N-1). -/
lemma fullScanOffsets_eq (N r : Nat) (hr : r ≤ 2) :
    fullScanOffsets (4 * N + r) = (List.range N).map (fun j => 4 * j) := by
  unfold fullScanOffsets
  interval_cases r
  · rw [show (4 * N + 0 + 3) / 4 = N by omega]
    apply List.filter_eq_self.mpr
    intro a ha
    obtain ⟨j, hj, rfl⟩ := List.mem_map.mp ha
    have hj' := List.mem_range.mp hj
    simp only [decide_eq_true_eq]
    omega
  · rw [show (4 * N + 1 + 3) / 4 = N + 1 by omega, List.range_succ, List.map_append,
      List.filter_append]
    have h1 : ((List.range N).map (fun j => 4 * j)).filter
        (fun i => decide (i + 2 < 4 * N + 1)) = (List.range N).map (fun j => 4 * j) := by
      apply List.filter_eq_self.mpr
      intro a ha
      obtain ⟨j, hj, rfl⟩ := List.mem_map.mp ha
      have hj' := List.mem_range.mp hj
      simp only [decide_eq_true_eq]
      omega
    have h2 : (([N].map (fun j => 4 * j)).filter
        (fun i => decide (i + 2 < 4 * N + 1))) = [] := by
      simp only [List.map_cons, List.map_nil, List.filter_cons, decide_eq_true_eq]
      rw [if_neg (by omega)]
      rfl
    rw [h1, h2, List.append_nil]
  · rw [show (4 * N + 2 + 3) / 4 = N + 1 by omega, List.range_succ, List.map_append,
      List.filter_append]
    have h1 : ((List.range N).map (fun j => 4 * j)).filter
        (fun i => decide (i + 2 < 4 * N + 2)) = (List.range N).map (fun j => 4 * j) := by
      apply List.filter_eq_self.mpr
      intro a ha
      obtain ⟨j, hj, rfl⟩ := List.mem_map.mp ha
      have hj' := List.mem_range.mp hj
      simp only [decide_eq_true_eq]
      omega
    have h2 : (([N].map (fun j => 4 * j)).filter
        (fun i => decide (i + 2 < 4 * N + 2))) = [] := by
      simp only [List.map_cons, List.map_nil, List.filter_cons, decide_eq_true_eq]
      rw [if_neg (by omega)]
      rfl
    rw [h1, h2, List.append_nil]

/-- For a buffer whose length overshoots 4*N by at most 2 bytes, the full-scan grays are
the grays of the first N pixel quads, in order. -/
lemma fullScanGrays_eq (data : List Nat) (N r : Nat) (hr : r ≤ 2)
    (hlen : data.length = 4 * N + r) :
    fullScanGrays data = (List.range N).map (fun k => quadGray data (4 * k)) := by
  unfold fullScanGrays
  rw [hlen, fullScanOffsets_eq N r hr, List.map_map]
  rfl

/-- Every index visited by step_by lies below its bound. -/
lemma strideIndices_lt {bound sr y : Nat} (hsr : 1 ≤ sr) (hy : y ∈ strideIndices bound sr) :
    y < bound := by
  unfold strideIndices at hy
  obtain ⟨j, hj, rfl⟩ := List.mem_map.mp hy
  have hj' : j < (bound + sr - 1) / sr := List.mem_range.mp hj
  have h1 : (bound + sr - 1) / sr * sr ≤ bound + sr - 1 := Nat.div_mul_le_self _ _
  have h2 : (j + 1) * sr ≤ (bound + sr - 1) / sr * sr :=
    Nat.mul_le_mul_right _ hj'
  have h3 : (j + 1) * sr = sr * j + sr := by ring
  have h4 : sr * j + sr ≤ bound + sr - 1 := by omega
  omega

/-- step_by always visits index 0 when the bound is positive. -/
lemma zero_mem_strideIndices {bound sr : Nat} (hsr : 1 ≤ sr) (hb : 1 ≤ bound) :
    0 ∈ strideIndices bound sr := by
  unfold strideIndices
  refine List.mem_map.mpr ⟨0, List.mem_range.mpr ?_, by omega⟩
  have : 1 ≤ (bound + sr - 1) / sr := (Nat.one_le_div_iff (by omega)).mpr (by omega)
  omega

/-- Membership in the strided offsets. -/
lemma mem_downsampledOffsets {len w h sr i : Nat} :
    i ∈ downsampledOffsets len w h sr ↔
      ((∃ y ∈ strideIndices h sr, ∃ x ∈ strideIndices w sr, (y * w + x) * 4 = i) ∧
        i + 2 < len) := by
  unfold downsampledOffsets
  simp only [List.mem_filter, List.mem_flatMap, List.mem_map, decide_eq_true_eq]

/-- Buckets outside the visited gray values never count, and the 256 in-range bucket
counts sum to the number of counted samples. -/
lemma sum_histCount (grays : List Nat) (hg : ∀ g ∈ grays, g < 256) :
    ∑ k ∈ Finset.range 256, histCount grays k = grays.length := by
  induction grays with
  | nil => simp [histCount]
  | cons a l ih =>
    have ha : a < 256 := hg a (List.mem_cons_self a l)
    have ih' := ih (fun g hgm => hg g (List.mem_cons_of_mem a hgm))
    unfold histCount at ih' ⊢
    simp only [List.count_cons]
    rw [Finset.sum_add_distrib, ih']
    have hone : ∑ k ∈ Finset.range 256, (if a == k then 1 else 0) = 1 := by
      simp only [beq_iff_eq]
      rw [Finset.sum_ite_eq (Finset.range 256) a (fun _ => 1)]
      simp [ha]
    rw [hone, List.length_cons]

/-- Claim C3: calling calculate_entropy_downsampled with sample_rate 0 or 1 returns a result
identical to calculate_entropy on the same buffer and dimensions. -/
theorem degenerate_stride_identical (data : List Nat) (w h : Nat) :
    calculate_entropy_downsampled data w h 0 = calculate_entropy data w h ∧
    calculate_entropy_downsampled data w h 1 = calculate_entropy data w h := by
  constructor
  · unfold calculate_entropy_downsampled
    rw [if_pos (by omega)]
  · unfold calculate_entropy_downsampled
    rw [if_pos (by omega)]

/-- Claim C5: for 8-bit channel values the bucket index (r*76 + g*150 + b*30) >> 8 lies in
0..=255, and the integer weights sum to 256, so histogram indexing is in bounds. -/
theorem bucket_index_in_bounds (r g b : Nat) (hr : r ≤ 255) (hg : g ≤ 255) (hb : b ≤ 255) :
    grayOf r g b ≤ 255 ∧ 76 + 150 + 30 = 256 :=
  ⟨grayOf_le r g b hr hg hb, rfl⟩

/-- Witness for bucket_index_in_bounds at the maximal channel values. -/
theorem bucket_index_in_bounds_witness :
    grayOf 255 255 255 ≤ 255 ∧ 76 + 150 + 30 = 256 :=
  bucket_index_in_bounds 255 255 255 (by decide) (by decide) (by decide)

/-- Claim C4 counterexample: in a buffer of length 6, the pixel quad at byte offset 4 has
offset + 2 = 6, which does not exceed the buffer length, yet the scan skips it — so
a quad is not skipped exactly when offset + 2 exceeds the length. -/
theorem truncation_skip_counterexample :
    ¬ 4 + 2 > 6 ∧ 4 % 4 = 0 ∧ 4 < 6 ∧ 4 ∉ fullScanOffsets 6 := by decide

/-- Claim C4 (amended): both scans access only in-bounds bytes, and a 4-aligned pixel quad
inside the buffer is counted exactly when its byte offset plus 2 is strictly below the
buffer length (equivalently, it is skipped exactly when offset + 2 is at least the
length), so in particular a final incomplete quad is excluded. -/
theorem truncation_skip_amended (len w h sr i : Nat) (hi : i % 4 = 0) (hlt : i < len) :
    (i ∈ fullScanOffsets len ↔ i + 2 < len) ∧
    (∀ j ∈ fullScanOffsets len, j + 2 < len) ∧
    (∀ j ∈ downsampledOffsets len w h sr, j + 2 < len) := by
  refine ⟨?_, ?_, ?_⟩
  · rw [mem_fullScanOffsets]
    exact ⟨fun hm => hm.2, fun hm => ⟨hi, hm⟩⟩
  · intro j hj
    exact (mem_fullScanOffsets.mp hj).2
  · intro j hj
    exact (mem_downsampledOffsets.mp hj).2

/-- Witness for truncation_skip_amended on a 7-byte buffer at offset 4. -/
theorem truncation_skip_amended_witness :
    4 % 4 = 0 ∧ 4 < 7 ∧
      ((4 ∈ fullScanOffsets 7 ↔ 4 + 2 < 7) ∧
        (∀ j ∈ fullScanOffsets 7, j + 2 < 7) ∧
        (∀ j ∈ downsampledOffsets 7 1 1 2, j + 2 < 7)) :=
  ⟨by decide, by decide, truncation_skip_amended 7 1 1 2 4 (by decide) (by decide)⟩

/-- The entropy accumulated over any gray list, with the list length as denominator,
is non-negative: every accumulated term -(p * log2 p) with 0 < p <= 1 is non-negative. -/
lemma entropyOfHist_nonneg (grays : List Nat) :
    0 ≤ entropyOfHist (histCount grays) grays.length := by
  unfold entropyOfHist
  apply Finset.sum_nonneg
  intro k _
  by_cases hk : 0 < histCount grays k
  · rw [if_pos hk]
    have hn : 0 < grays.length := lt_of_lt_of_le hk (List.count_le_length k grays)
    have hnR : (0 : ℝ) < (grays.length : ℝ) := by exact_mod_cast hn
    have hp0 : (0 : ℝ) < (histCount grays k : ℝ) / (grays.length : ℝ) :=
      div_pos (by exact_mod_cast hk) hnR
    have hp1 : (histCount grays k : ℝ) / (grays.length : ℝ) ≤ 1 := by
      rw [div_le_one hnR]
      exact_mod_cast List.count_le_length k grays
    have hlog : Real.logb 2 ((histCount grays k : ℝ) / (grays.length : ℝ)) ≤ 0 :=
      Real.logb_nonpos (by norm_num) hp0.le hp1
    have := mul_nonpos_iff.mpr (Or.inr ⟨hlog, hp0.le⟩)
    nlinarith
  · rw [if_neg hk]

/-- Per-bucket bound for the entropy upper bound: for p > 0,
-(p * log2 p) is at most 8p + (1/256 - p) / log 2, by log x <= x - 1. -/
lemma term_bound {p : ℝ} (hp : 0 < p) :
    -(p * Real.logb 2 p) ≤ 8 * p + (Real.log 2)⁻¹ * (1 / 256 - p) := by
  have hlog2 : 0 < Real.log 2 := Real.log_pos (by norm_num)
  have h1 : Real.log (p⁻¹ / 256) ≤ p⁻¹ / 256 - 1 :=
    Real.log_le_sub_one_of_pos (by positivity)
  have h2 : Real.log p⁻¹ = Real.log (p⁻¹ / 256) + Real.log 256 := by
    rw [← Real.log_mul (by positivity) (by norm_num)]
    norm_num
  have h256 : Real.log 256 = 8 * Real.log 2 := by
    rw [show (256 : ℝ) = 2 ^ (8 : ℕ) by norm_num, Real.log_pow]
    push_cast
    ring
  have hkey : -Real.log p ≤ p⁻¹ / 256 - 1 + 8 * Real.log 2 := by
    rw [← Real.log_inv, h2, h256]
    linarith
  have hmul : p * (-Real.log p) ≤ p * (p⁻¹ / 256 - 1 + 8 * Real.log 2) :=
    mul_le_mul_of_nonneg_left hkey hp.le
  have hexp : p * (p⁻¹ / 256 - 1 + 8 * Real.log 2)
      = p * p⁻¹ / 256 - p + 8 * p * Real.log 2 := by ring
  rw [hexp, mul_inv_cancel₀ (ne_of_gt hp)] at hmul
  rw [← Real.log_div_log]
  rw [show -(p * (Real.log p / Real.log 2)) = p * (-Real.log p) / Real.log 2 by ring]
  rw [div_le_iff₀ hlog2]
  have hdistrib : (8 * p + (Real.log 2)⁻¹ * (1 / 256 - p)) * Real.log 2
      = 8 * p * Real.log 2 + (Real.log 2)⁻¹ * Real.log 2 * (1 / 256 - p) := by ring
  rw [hdistrib, inv_mul_cancel₀ (ne_of_gt hlog2), one_mul]
  linarith

/-- The entropy over any nonempty gray list of 8-bit values, with the list length as
denominator, is at most 8 = log2 256. -/
lemma entropyOfHist_le_eight (grays : List Nat) (hg : ∀ g ∈ grays, g < 256)
    (hne : grays ≠ []) :
    entropyOfHist (histCount grays) grays.length ≤ 8 := by
  have hn : 0 < grays.length := List.length_pos.mpr hne
  have hnR : (0 : ℝ) < (grays.length : ℝ) := by exact_mod_cast hn
  set S := (Finset.range 256).filter (fun k => 0 < histCount grays k) with hSdef
  have hHS : entropyOfHist (histCount grays) grays.length
      = ∑ k ∈ S, -((histCount grays k : ℝ) / (grays.length : ℝ)
          * Real.logb 2 ((histCount grays k : ℝ) / (grays.length : ℝ))) := by
    unfold entropyOfHist
    rw [hSdef, Finset.sum_filter]
  have hsumS : ∑ k ∈ S, (histCount grays k : ℝ) = (grays.length : ℝ) := by
    have h1 : ∑ k ∈ S, (histCount grays k : ℝ)
        = ∑ k ∈ Finset.range 256, (histCount grays k : ℝ) := by
      apply Finset.sum_subset (Finset.filter_subset _ _)
      intro k hk hks
      have hzero : histCount grays k = 0 := by
        by_contra hpos
        exact hks (Finset.mem_filter.mpr ⟨hk, Nat.pos_of_ne_zero hpos⟩)
      rw [hzero]
      simp
    rw [h1, ← Nat.cast_sum, sum_histCount grays hg]
  have e0 : ∑ k ∈ S, (histCount grays k : ℝ) / (grays.length : ℝ) = 1 := by
    rw [← Finset.sum_div, hsumS, div_self (ne_of_gt hnR)]
  have hterm : ∀ k ∈ S,
      -((histCount grays k : ℝ) / (grays.length : ℝ)
          * Real.logb 2 ((histCount grays k : ℝ) / (grays.length : ℝ)))
        ≤ 8 * ((histCount grays k : ℝ) / (grays.length : ℝ))
          + (Real.log 2)⁻¹ * (1 / 256 - (histCount grays k : ℝ) / (grays.length : ℝ)) := by
    intro k hk
    have hck : 0 < histCount grays k := (Finset.mem_filter.mp hk).2
    exact term_bound (div_pos (by exact_mod_cast hck) hnR)
  have hsum_le := Finset.sum_le_sum hterm
  rw [← hHS] at hsum_le
  have e1 : ∑ k ∈ S, 8 * ((histCount grays k : ℝ) / (grays.length : ℝ)) = 8 := by
    rw [← Finset.mul_sum, e0, mul_one]
  have e2 : ∑ k ∈ S, (Real.log 2)⁻¹
        * (1 / 256 - (histCount grays k : ℝ) / (grays.length : ℝ))
      = (Real.log 2)⁻¹ * ((S.card : ℝ) / 256 - 1) := by
    rw [← Finset.mul_sum]
    congr 1
    rw [Finset.sum_sub_distrib, e0, Finset.sum_const]
    rw [nsmul_eq_mul]
    ring
  rw [Finset.sum_add_distrib, e1, e2] at hsum_le
  have hcardR : (S.card : ℝ) ≤ 256 := by
    have hc : S.card ≤ 256 := le_trans (Finset.card_filter_le _ _) (by simp)
    exact_mod_cast hc
  have hlog2 : 0 < Real.log 2 := Real.log_pos (by norm_num)
  have hnonpos : (Real.log 2)⁻¹ * ((S.card : ℝ) / 256 - 1) ≤ 0 :=
    mul_nonpos_iff.mpr (Or.inl ⟨by positivity, by linarith⟩)
  linarith

/-- A single accumulated entropy term vanishes exactly when its bucket holds every
counted sample. -/
lemma term_eq_zero_iff {c n : Nat} (hc : 0 < c) (hn : 0 < n) :
    (-((c : ℝ) / (n : ℝ) * Real.logb 2 ((c : ℝ) / (n : ℝ))) = 0 ↔ c = n) := by
  have hnR : (0 : ℝ) < (n : ℝ) := by exact_mod_cast hn
  have hp0 : (0 : ℝ) < (c : ℝ) / (n : ℝ) := div_pos (by exact_mod_cast hc) hnR
  constructor
  · intro h
    have h' : (c : ℝ) / (n : ℝ) * Real.logb 2 ((c : ℝ) / (n : ℝ)) = 0 := by linarith
    rcases mul_eq_zero.mp h' with h0 | h0
    · exact absurd h0 (ne_of_gt hp0)
    · have h1 : (c : ℝ) / (n : ℝ) = 1 :=
        Real.eq_one_of_pos_of_logb_eq_zero (by norm_num) hp0 h0
      have h2 : c = n := by
        field_simp at h1
        exact_mod_cast h1
      exact h2
  · intro h
    subst h
    rw [div_self (ne_of_gt hnR)]
    simp

/-- The entropy over a nonempty gray list of 8-bit values vanishes exactly when every
counted sample carries the same gray value, i.e. all samples fall in one bucket. -/
lemma entropyOfHist_eq_zero_iff (grays : List Nat) (hg : ∀ g ∈ grays, g < 256)
    (hne : grays ≠ []) :
    (entropyOfHist (histCount grays) grays.length = 0 ↔ ∃ m, ∀ g ∈ grays, g = m) := by
  have hn : 0 < grays.length := List.length_pos.mpr hne
  have hnonneg : ∀ k ∈ Finset.range 256,
      0 ≤ (if 0 < histCount grays k then
        -((histCount grays k : ℝ) / (grays.length : ℝ)
          * Real.logb 2 ((histCount grays k : ℝ) / (grays.length : ℝ)))
      else 0) := by
    intro k _
    by_cases hk : 0 < histCount grays k
    · rw [if_pos hk]
      have hnR : (0 : ℝ) < (grays.length : ℝ) := by exact_mod_cast hn
      have hp0 : (0 : ℝ) < (histCount grays k : ℝ) / (grays.length : ℝ) :=
        div_pos (by exact_mod_cast hk) hnR
      have hp1 : (histCount grays k : ℝ) / (grays.length : ℝ) ≤ 1 := by
        rw [div_le_one hnR]
        exact_mod_cast List.count_le_length k grays
      have hlog : Real.logb 2 ((histCount grays k : ℝ) / (grays.length : ℝ)) ≤ 0 :=
        Real.logb_nonpos (by norm_num) hp0.le hp1
      nlinarith
    · rw [if_neg hk]
  constructor
  · intro hzero
    obtain ⟨g0, hg0⟩ := List.exists_mem_of_length_pos hn
    have hc0 : 0 < histCount grays g0 := List.count_pos_iff.mpr hg0
    have hg0lt : g0 < 256 := hg g0 hg0
    have hall := (Finset.sum_eq_zero_iff_of_nonneg hnonneg).mp (by
      unfold entropyOfHist at hzero
      exact hzero)
    have hterm := hall g0 (Finset.mem_range.mpr hg0lt)
    rw [if_pos hc0] at hterm
    have hclen : histCount grays g0 = grays.length := (term_eq_zero_iff hc0 hn).mp hterm
    refine ⟨g0, fun g hgm => ?_⟩
    exact (List.count_eq_length.mp hclen g hgm).symm
  · rintro ⟨m, hm⟩
    unfold entropyOfHist
    apply Finset.sum_eq_zero
    intro k _
    by_cases hk : 0 < histCount grays k
    · rw [if_pos hk]
      have hkmem : k ∈ grays := List.count_pos_iff.mp hk
      have hkm : k = m := hm k hkmem
      have hclen : histCount grays k = grays.length := by
        unfold histCount
        apply List.count_eq_length.mpr
        intro b hb
        rw [hkm, hm b hb]
      exact (term_eq_zero_iff hk hn).mpr hclen
    · rw [if_neg hk]

/-- If every counted gray value is the same, the accumulated entropy is zero, for any
denominator: the single non-zero bucket contributes -(p * log2 p) with p = 1 when the
denominator is the sample count, and every other bucket is skipped. -/
lemma entropyOfHist_const (grays : List Nat) (γ : Nat) (hall : ∀ g ∈ grays, g = γ) :
    entropyOfHist (histCount grays) grays.length = 0 := by
  unfold entropyOfHist
  apply Finset.sum_eq_zero
  intro k _
  by_cases hk : 0 < histCount grays k
  · rw [if_pos hk]
    have hn : 0 < grays.length := lt_of_lt_of_le hk (List.count_le_length k grays)
    have hkmem : k ∈ grays := List.count_pos_iff.mp hk
    have hclen : histCount grays k = grays.length := by
      unfold histCount
      apply List.count_eq_length.mpr
      intro b hb
      rw [hall k hkmem, hall b hb]
    exact (term_eq_zero_iff hk hn).mpr hclen
  · rw [if_neg hk]

/-- Evaluating the entropy of a histogram whose samples are n copies of one 8-bit gray
value, against an arbitrary denominator. -/
lemma entropyOfHist_replicate (γ n total : Nat) (hγ : γ < 256) (hn : 0 < n) :
    entropyOfHist (histCount (List.replicate n γ)) total
      = -((n : ℝ) / (total : ℝ) * Real.logb 2 ((n : ℝ) / (total : ℝ))) := by
  unfold entropyOfHist
  rw [Finset.sum_eq_single γ]
  · have hself : histCount (List.replicate n γ) γ = n := by
      simp [histCount]
    rw [hself, if_pos hn]
  · intro k _ hkγ
    have hzero : histCount (List.replicate n γ) k = 0 := by
      unfold histCount
      rw [List.count_replicate]
      simp only [beq_iff_eq]
      rw [if_neg (fun hcon => hkγ hcon.symm)]
    rw [hzero]
    simp
  · intro hmem
    exact absurd (Finset.mem_range.mpr hγ) hmem

/-- Every gray counted by the full scan of a u8 buffer is a valid bucket index. -/
lemma fullScanGrays_lt (data : List Nat) (hdata : ∀ x ∈ data, x < 256) :
    ∀ g ∈ fullScanGrays data, g < 256 := by
  intro g hgm
  obtain ⟨i, _, rfl⟩ := List.mem_map.mp hgm
  exact quadGray_lt data hdata i

/-- Every gray counted by the strided scan of a u8 buffer is a valid bucket index. -/
lemma downsampledGrays_lt (data : List Nat) (w h sr : Nat)
    (hdata : ∀ x ∈ data, x < 256) :
    ∀ g ∈ downsampledGrays data w h sr, g < 256 := by
  intro g hgm
  obtain ⟨i, _, rfl⟩ := List.mem_map.mp hgm
  exact quadGray_lt data hdata i

/-- sample_count is the number of grays counted by the strided scan. -/
lemma sample_count_eq_length (data : List Nat) (w h sr : Nat) :
    sample_count data w h sr = (downsampledGrays data w h sr).length := by
  unfold sample_count downsampledGrays
  rw [List.length_map]

/-- The full scan of the all-zero 8-byte buffer counts two samples of gray 0. -/
lemma fullScanGrays_replicate8 :
    fullScanGrays (List.replicate 8 0) = List.replicate 2 0 := by decide

/-- On the all-zero 8-byte buffer declared as 1x1, calculate_entropy returns -2. -/
lemma calculate_entropy_replicate8 : calculate_entropy (List.replicate 8 0) 1 1 = -2 := by
  unfold calculate_entropy
  rw [fullScanGrays_replicate8, entropyOfHist_replicate 0 2 (1 * 1) (by decide) (by decide)]
  norm_num

/-- On the all-zero 8-byte buffer declared as 1x1, the bucket probabilities of the
full-scan histogram sum to 2. -/
lemma probSum_replicate8 :
    ∑ k ∈ Finset.range 256,
      (histCount (fullScanGrays (List.replicate 8 0)) k : ℝ) / ((1 * 1 : ℕ) : ℝ) = 2 := by
  rw [← Finset.sum_div, ← Nat.cast_sum, fullScanGrays_replicate8,
    sum_histCount _ (by decide)]
  norm_num

/-- Claim C9: the full scan counts every 4-aligned quad whose three RGB bytes are in bounds,
including quads beyond the first width*height pixels, while the entropy denominator stays
width*height; on the over-long all-zero 8-byte buffer declared as 1x1 the bucket
probabilities sum to 2 > 1 and calculate_entropy returns -2 < 0. -/
theorem overlong_buffer_behavior :
    (∀ len k, 4 * k + 2 < len → 4 * k ∈ fullScanOffsets len) ∧
    1 * 1 * 4 < (List.replicate 8 0 : List Nat).length ∧
    (∑ k ∈ Finset.range 256,
      (histCount (fullScanGrays (List.replicate 8 0)) k : ℝ) / ((1 * 1 : ℕ) : ℝ)) > 1 ∧
    calculate_entropy (List.replicate 8 0) 1 1 < 0 := by
  refine ⟨fun len k hk => mem_fullScanOffsets.mpr ⟨by omega, hk⟩, by decide, ?_, ?_⟩
  · rw [probSum_replicate8]
    norm_num
  · rw [calculate_entropy_replicate8]
    norm_num

/-- Witness for overlong_buffer_behavior: the quad at byte offset 8 of an 11-byte buffer
is counted even though a 1x1 image only declares one pixel. -/
theorem overlong_buffer_behavior_witness :
    4 * 2 + 2 < 11 ∧ 4 * 2 ∈ fullScanOffsets 11 :=
  ⟨by decide, overlong_buffer_behavior.1 11 2 (by decide)⟩

/-- Claim C1 counterexample: the all-zero 8-byte buffer declared as 1x1 satisfies the claimed
caller contract length >= width*height*4 with width*height >= 1, yet calculate_entropy
returns a negative value. -/
theorem entropy_bounds_counterexample :
    1 * 1 * 4 ≤ (List.replicate 8 0 : List Nat).length ∧ 1 ≤ 1 * 1 ∧
    (∀ x ∈ List.replicate 8 0, x < 256) ∧
    calculate_entropy (List.replicate 8 0) 1 1 < 0 := by
  refine ⟨by decide, by decide, by decide, ?_⟩
  rw [calculate_entropy_replicate8]
  norm_num

/-- Claim C2 counterexample: the all-zero 8-byte buffer declared as 1x1 satisfies
length >= width*height*4, yet the full-scan histogram sums to 2, not width*height = 1. -/
theorem histogram_sum_counterexample :
    1 * 1 * 4 ≤ (List.replicate 8 0 : List Nat).length ∧
    ∑ k ∈ Finset.range 256, histCount (fullScanGrays (List.replicate 8 0)) k = 2 ∧
    (2 : Nat) ≠ 1 * 1 := by
  refine ⟨by decide, ?_, by decide⟩
  rw [fullScanGrays_replicate8, sum_histCount _ (by decide)]
  rfl

/-- Claim C10: in the strided path (sample_rate > 1), whenever sample_count is 0 the function
returns exactly 0, because every histogram bucket is then zero and zero-count buckets
are skipped before any division occurs. -/
theorem zero_sample_count_entropy_zero (data : List Nat) (w h sr : Nat)
    (hsr : 1 < sr) (hzero : sample_count data w h sr = 0) :
    calculate_entropy_downsampled data w h sr = 0 := by
  unfold calculate_entropy_downsampled
  rw [if_neg (by omega)]
  have hnil : downsampledGrays data w h sr = [] := by
    rw [sample_count_eq_length] at hzero
    exact List.length_eq_zero.mp hzero
  rw [hnil]
  unfold entropyOfHist
  apply Finset.sum_eq_zero
  intro k _
  rw [if_neg (by simp [histCount])]

/-- Witness for zero_sample_count_entropy_zero: an empty buffer declared as 0x0 with
sample_rate 2 yields sample_count 0 and entropy 0. -/
theorem zero_sample_count_entropy_zero_witness :
    1 < 2 ∧ sample_count [] 0 0 2 = 0 ∧ calculate_entropy_downsampled [] 0 0 2 = 0 :=
  ⟨by decide, by decide, zero_sample_count_entropy_zero [] 0 0 2 (by decide) (by decide)⟩

/-- When the buffer length overshoots 4*N by at most 2 bytes, the full scan reads
exactly the first N pixel quads. -/
lemma fullScanGrays_of_bounds (data : List Nat) (N : Nat)
    (hlo : 4 * N ≤ data.length) (hhi : data.length ≤ 4 * N + 2) :
    fullScanGrays data = (List.range N).map (fun k => quadGray data (4 * k)) :=
  fullScanGrays_eq data N (data.length - 4 * N) (by omega) (by omega)

/-- Under the same length bounds, the full scan counts exactly N samples. -/
lemma fullScanGrays_length_of_bounds (data : List Nat) (N : Nat)
    (hlo : 4 * N ≤ data.length) (hhi : data.length ≤ 4 * N + 2) :
    (fullScanGrays data).length = N := by
  rw [fullScanGrays_of_bounds data N hlo hhi, List.length_map, List.length_range]

/-- Claim C1 (amended): when the buffer length overshoots width*height*4 by at most 2 bytes —
so the counted samples are exactly the width*height declared pixels — the value returned
by calculate_entropy, and by calculate_entropy_downsampled for any sample_rate, is
non-negative and at most 8, and it is 0 exactly when all counted samples fall in one
histogram bucket. -/
theorem entropy_bounds_amended (data : List Nat) (w h sr : Nat)
    (hdata : ∀ x ∈ data, x < 256) (hwh : 1 ≤ w * h)
    (hlo : w * h * 4 ≤ data.length) (hhi : data.length ≤ w * h * 4 + 2) :
    (0 ≤ calculate_entropy data w h ∧ calculate_entropy data w h ≤ 8 ∧
      (calculate_entropy data w h = 0 ↔ ∃ m, ∀ g ∈ fullScanGrays data, g = m)) ∧
    (0 ≤ calculate_entropy_downsampled data w h sr ∧
      calculate_entropy_downsampled data w h sr ≤ 8 ∧
      (calculate_entropy_downsampled data w h sr = 0 ↔
        ∃ m, ∀ g ∈ countedGrays data w h sr, g = m)) := by
  have hlen : (fullScanGrays data).length = w * h :=
    fullScanGrays_length_of_bounds data (w * h) (by omega) (by omega)
  have hgf := fullScanGrays_lt data hdata
  have hnef : fullScanGrays data ≠ [] := by
    apply List.ne_nil_of_length_pos
    omega
  have hce : calculate_entropy data w h
      = entropyOfHist (histCount (fullScanGrays data)) (fullScanGrays data).length := by
    unfold calculate_entropy
    rw [hlen]
  have hfull : 0 ≤ calculate_entropy data w h ∧ calculate_entropy data w h ≤ 8 ∧
      (calculate_entropy data w h = 0 ↔ ∃ m, ∀ g ∈ fullScanGrays data, g = m) := by
    refine ⟨?_, ?_, ?_⟩
    · rw [hce]; exact entropyOfHist_nonneg _
    · rw [hce]; exact entropyOfHist_le_eight _ hgf hnef
    · rw [hce]; exact entropyOfHist_eq_zero_iff _ hgf hnef
  refine ⟨hfull, ?_⟩
  by_cases hsr : sr ≤ 1
  · have hced : calculate_entropy_downsampled data w h sr = calculate_entropy data w h := by
      unfold calculate_entropy_downsampled
      rw [if_pos hsr]
    have hcg : countedGrays data w h sr = fullScanGrays data := by
      unfold countedGrays
      rw [if_pos hsr]
    rw [hced, hcg]
    exact hfull
  · have hw : 0 < w := by
      rcases Nat.eq_zero_or_pos w with hw0 | hw0
      · rw [hw0, zero_mul] at hwh; omega
      · exact hw0
    have hh : 0 < h := by
      rcases Nat.eq_zero_or_pos h with hh0 | hh0
      · rw [hh0, mul_zero] at hwh; omega
      · exact hh0
    have hmem0 : 0 ∈ downsampledOffsets data.length w h sr := by
      apply mem_downsampledOffsets.mpr
      exact ⟨⟨0, zero_mem_strideIndices (by omega) hh, 0,
        zero_mem_strideIndices (by omega) hw, by ring⟩, by omega⟩
    have hned : downsampledGrays data w h sr ≠ [] := by
      unfold downsampledGrays
      intro hcon
      rw [List.map_eq_nil_iff] at hcon
      rw [hcon] at hmem0
      exact List.not_mem_nil _ hmem0
    have hgd := downsampledGrays_lt data w h sr hdata
    have hced : calculate_entropy_downsampled data w h sr
        = entropyOfHist (histCount (downsampledGrays data w h sr))
            (downsampledGrays data w h sr).length := by
      unfold calculate_entropy_downsampled
      rw [if_neg hsr, sample_count_eq_length]
    have hcg : countedGrays data w h sr = downsampledGrays data w h sr := by
      unfold countedGrays
      rw [if_neg hsr]
    rw [hced, hcg]
    exact ⟨entropyOfHist_nonneg _, entropyOfHist_le_eight _ hgd hned,
      entropyOfHist_eq_zero_iff _ hgd hned⟩

/-- Witness for entropy_bounds_amended on a single black pixel with sample_rate 2. -/
theorem entropy_bounds_amended_witness :
    (∀ x ∈ ([0, 0, 0, 255] : List Nat), x < 256) ∧ 1 ≤ 1 * 1 ∧
    1 * 1 * 4 ≤ ([0, 0, 0, 255] : List Nat).length ∧
    ([0, 0, 0, 255] : List Nat).length ≤ 1 * 1 * 4 + 2 ∧
    ((0 ≤ calculate_entropy [0, 0, 0, 255] 1 1 ∧
      calculate_entropy [0, 0, 0, 255] 1 1 ≤ 8 ∧
      (calculate_entropy [0, 0, 0, 255] 1 1 = 0 ↔
        ∃ m, ∀ g ∈ fullScanGrays [0, 0, 0, 255], g = m)) ∧
    (0 ≤ calculate_entropy_downsampled [0, 0, 0, 255] 1 1 2 ∧
      calculate_entropy_downsampled [0, 0, 0, 255] 1 1 2 ≤ 8 ∧
      (calculate_entropy_downsampled [0, 0, 0, 255] 1 1 2 = 0 ↔
        ∃ m, ∀ g ∈ countedGrays [0, 0, 0, 255] 1 1 2, g = m))) :=
  ⟨by decide, by decide, by decide, by decide,
    entropy_bounds_amended [0, 0, 0, 255] 1 1 2 (by decide) (by decide) (by decide)
      (by decide)⟩

/-- Claim C2 (amended): for every u8 pixel buffer and any dimensions and sample_rate, the
strided histogram always sums exactly to sample_count; the full-scan histogram sums to
width*height provided the buffer length overshoots width*height*4 by at most 2 bytes
(an over-long buffer adds extra counted quads). -/
theorem histogram_sum_amended (data : List Nat) (w h sr : Nat)
    (hdata : ∀ x ∈ data, x < 256) :
    (∑ k ∈ Finset.range 256, histCount (downsampledGrays data w h sr) k
      = sample_count data w h sr) ∧
    (w * h * 4 ≤ data.length → data.length ≤ w * h * 4 + 2 →
      ∑ k ∈ Finset.range 256, histCount (fullScanGrays data) k = w * h) := by
  constructor
  · rw [sum_histCount _ (downsampledGrays_lt data w h sr hdata)]
    exact (sample_count_eq_length data w h sr).symm
  · intro hlo hhi
    rw [sum_histCount _ (fullScanGrays_lt data hdata)]
    exact fullScanGrays_length_of_bounds data (w * h) (by omega) (by omega)

/-- Witness for histogram_sum_amended: the unconditional strided conjunct on an over-long
buffer (12 bytes declared 1x1), and both conjuncts on a single gray pixel with
sample_rate 3. -/
theorem histogram_sum_amended_witness :
    (∀ x ∈ ([7, 7, 7, 0, 1, 1, 1, 0, 2, 2, 2, 0] : List Nat), x < 256) ∧
    (∑ k ∈ Finset.range 256,
      histCount (downsampledGrays [7, 7, 7, 0, 1, 1, 1, 0, 2, 2, 2, 0] 1 1 2) k
        = sample_count [7, 7, 7, 0, 1, 1, 1, 0, 2, 2, 2, 0] 1 1 2) ∧
    (∀ x ∈ ([7, 7, 7, 0] : List Nat), x < 256) ∧
    1 * 1 * 4 ≤ ([7, 7, 7, 0] : List Nat).length ∧
    ([7, 7, 7, 0] : List Nat).length ≤ 1 * 1 * 4 + 2 ∧
    (∑ k ∈ Finset.range 256, histCount (downsampledGrays [7, 7, 7, 0] 1 1 3) k
      = sample_count [7, 7, 7, 0] 1 1 3) ∧
    (∑ k ∈ Finset.range 256, histCount (fullScanGrays [7, 7, 7, 0]) k = 1 * 1) :=
  ⟨by decide,
    (histogram_sum_amended [7, 7, 7, 0, 1, 1, 1, 0, 2, 2, 2, 0] 1 1 2 (by decide)).1,
    by decide, by decide, by decide,
    (histogram_sum_amended [7, 7, 7, 0] 1 1 3 (by decide)).1,
    (histogram_sum_amended [7, 7, 7, 0] 1 1 3 (by decide)).2 (by decide) (by decide)⟩

/-- The gray of the quad at byte offset 4*k is the gray of pixel k. -/
lemma quadGray_eq_grayTriple (data : List Nat) (k : Nat) :
    quadGray data (4 * k) = grayTriple (quadRGB data k) := rfl

/-- For an exactly well-formed buffer, the full-scan grays are the grays of the pixel
quads, in order. -/
lemma fullScanGrays_as_quads (data : List Nat) (N : Nat) (hlen : data.length = 4 * N) :
    fullScanGrays data = ((List.range N).map (quadRGB data)).map grayTriple := by
  rw [fullScanGrays_eq data N 0 (by omega) (by omega), List.map_map]
  rfl

/-- Claim C8: permuting the sequence of 4-byte pixel quads of a well-formed buffer leaves
calculate_entropy unchanged: the histogram, and therefore the entropy, depends only on
the multiset of pixel values, not the visitation order. -/
theorem perm_invariant_entropy (d1 d2 : List Nat) (w h : Nat)
    (hlen1 : d1.length = w * h * 4) (hlen2 : d2.length = w * h * 4)
    (hperm : ((List.range (w * h)).map (quadRGB d1)).Perm
      ((List.range (w * h)).map (quadRGB d2))) :
    calculate_entropy d1 w h = calculate_entropy d2 w h := by
  have h1 : fullScanGrays d1 = ((List.range (w * h)).map (quadRGB d1)).map grayTriple :=
    fullScanGrays_as_quads d1 (w * h) (by omega)
  have h2 : fullScanGrays d2 = ((List.range (w * h)).map (quadRGB d2)).map grayTriple :=
    fullScanGrays_as_quads d2 (w * h) (by omega)
  have hpg : (fullScanGrays d1).Perm (fullScanGrays d2) := by
    rw [h1, h2]
    exact hperm.map grayTriple
  unfold calculate_entropy
  have hhist : histCount (fullScanGrays d1) = histCount (fullScanGrays d2) := by
    funext k
    exact hpg.count_eq k
  rw [hhist]

/-- Witness for perm_invariant_entropy: a 2x1 buffer and the same buffer with its two
pixel quads swapped. -/
theorem perm_invariant_entropy_witness :
    calculate_entropy [1, 2, 3, 4, 9, 9, 9, 9] 2 1
      = calculate_entropy [9, 9, 9, 9, 1, 2, 3, 4] 2 1 :=
  perm_invariant_entropy [1, 2, 3, 4, 9, 9, 9, 9] [9, 9, 9, 9, 1, 2, 3, 4] 2 1
    (by decide) (by decide) (by decide)

/-- Claim C7: a uniformly colored well-formed image yields entropy exactly 0 from
calculate_entropy_downsampled for every sample_rate >= 1: sampling a constant signal
never introduces spurious entropy. -/
theorem uniform_color_entropy_zero (data : List Nat) (w h sr r g b : Nat)
    (hlen : data.length = w * h * 4)
    (hquads : ∀ k < w * h, quadRGB data k = (r, g, b))
    (hsr : 1 ≤ sr) :
    calculate_entropy_downsampled data w h sr = 0 := by
  by_cases hsr1 : sr ≤ 1
  · unfold calculate_entropy_downsampled
    rw [if_pos hsr1]
    unfold calculate_entropy
    have hall : ∀ g' ∈ fullScanGrays data, g' = grayOf r g b := by
      intro g' hg'
      rw [fullScanGrays_of_bounds data (w * h) (by omega) (by omega)] at hg'
      obtain ⟨k, hk, rfl⟩ := List.mem_map.mp hg'
      rw [quadGray_eq_grayTriple, hquads k (List.mem_range.mp hk)]
      rfl
    have hlength : w * h = (fullScanGrays data).length :=
      (fullScanGrays_length_of_bounds data (w * h) (by omega) (by omega)).symm
    rw [hlength]
    exact entropyOfHist_const _ (grayOf r g b) hall
  · unfold calculate_entropy_downsampled
    rw [if_neg hsr1, sample_count_eq_length]
    apply entropyOfHist_const _ (grayOf r g b)
    intro g' hg'
    obtain ⟨i, hi, rfl⟩ := List.mem_map.mp hg'
    obtain ⟨⟨y, hy, x, hx, hi_eq⟩, _⟩ := mem_downsampledOffsets.mp hi
    have hylt : y < h := strideIndices_lt (by omega) hy
    have hxlt : x < w := strideIndices_lt (by omega) hx
    have hk : y * w + x < w * h := by
      calc y * w + x < y * w + w := by omega
      _ = (y + 1) * w := by ring
      _ ≤ h * w := Nat.mul_le_mul_right w (by omega)
      _ = w * h := Nat.mul_comm h w
    rw [← hi_eq, show (y * w + x) * 4 = 4 * (y * w + x) from Nat.mul_comm _ _,
      quadGray_eq_grayTriple, hquads (y * w + x) hk]
    rfl

/-- Witness for uniform_color_entropy_zero: a 1x2 image of a constant color, stride 2. -/
theorem uniform_color_entropy_zero_witness :
    (∀ k < 1 * 2, quadRGB [5, 6, 7, 255, 5, 6, 7, 255] k = (5, 6, 7)) ∧
    calculate_entropy_downsampled [5, 6, 7, 255, 5, 6, 7, 255] 1 2 2 = 0 :=
  ⟨by decide, uniform_color_entropy_zero [5, 6, 7, 255, 5, 6, 7, 255] 1 2 2 5 6 7
    (by decide) (by decide) (by decide)⟩

/-- Counting a mapped range against a decidable predicate on the index. -/
lemma count_map_range (f : Nat → Nat) (n a : Nat) (p : Nat → Bool)
    (hp : ∀ k < n, (f k == a) = p k) :
    ((List.range n).map f).count a = ((List.range n).filter p).length := by
  rw [List.count_eq_countP, List.countP_map, ← List.countP_eq_length_filter]
  apply List.countP_congr
  intro k hk
  have hk' := List.mem_range.mp hk
  simp only [Function.comp_apply]
  rw [hp k hk']

/-- Claim C6: in a well-formed buffer with an even, positive pixel count in which exactly half
the pixel quads are pure black (0,0,0) and half are pure white (255,255,255), the full
scan puts half the samples in bucket 0 and half in bucket 255, and calculate_entropy
returns exactly 1. -/
theorem two_tone_entropy_one (data : List Nat) (w h : Nat)
    (hlen : data.length = w * h * 4) (hpos : 0 < w * h) (heven : w * h % 2 = 0)
    (hquads : ∀ k < w * h,
      quadRGB data k = (0, 0, 0) ∨ quadRGB data k = (255, 255, 255))
    (hblack : ((List.range (w * h)).filter
      (fun k => decide (quadRGB data k = (0, 0, 0)))).length = w * h / 2)
    (hwhite : ((List.range (w * h)).filter
      (fun k => decide (quadRGB data k = (255, 255, 255)))).length = w * h / 2) :
    histCount (fullScanGrays data) 0 = w * h / 2 ∧
    histCount (fullScanGrays data) 255 = w * h / 2 ∧
    calculate_entropy data w h = 1 := by
  have hfsg : fullScanGrays data
      = (List.range (w * h)).map (fun k => quadGray data (4 * k)) :=
    fullScanGrays_of_bounds data (w * h) (by omega) (by omega)
  have hp0 : ∀ k < w * h, (quadGray data (4 * k) == 0)
      = decide (quadRGB data k = (0, 0, 0)) := by
    intro k hk
    rcases hquads k hk with hq | hq <;> rw [quadGray_eq_grayTriple, hq] <;> rfl
  have hp255 : ∀ k < w * h, (quadGray data (4 * k) == 255)
      = decide (quadRGB data k = (255, 255, 255)) := by
    intro k hk
    rcases hquads k hk with hq | hq <;> rw [quadGray_eq_grayTriple, hq] <;> rfl
  have hc0 : histCount (fullScanGrays data) 0 = w * h / 2 := by
    unfold histCount
    rw [hfsg, count_map_range _ _ _ (fun k => decide (quadRGB data k = (0, 0, 0)))
      hp0, hblack]
  have hc255 : histCount (fullScanGrays data) 255 = w * h / 2 := by
    unfold histCount
    rw [hfsg, count_map_range _ _ _ (fun k => decide (quadRGB data k = (255, 255, 255)))
      hp255, hwhite]
  have hother : ∀ k, k ≠ 0 → k ≠ 255 → histCount (fullScanGrays data) k = 0 := by
    intro k hk0 hk255
    unfold histCount
    rw [List.count_eq_zero]
    intro hmem
    rw [hfsg] at hmem
    obtain ⟨j, hj, hjk⟩ := List.mem_map.mp hmem
    have hj' := List.mem_range.mp hj
    rcases hquads j hj' with hq | hq
    · have hq' : quadGray data (4 * j) = 0 := by
        rw [quadGray_eq_grayTriple, hq]
        rfl
      omega
    · have hq' : quadGray data (4 * j) = 255 := by
        rw [quadGray_eq_grayTriple, hq]
        rfl
      omega
  refine ⟨hc0, hc255, ?_⟩
  have hn2 : 0 < w * h / 2 := by omega
  have hnR : (0 : ℝ) < ((w * h : ℕ) : ℝ) := by exact_mod_cast hpos
  have hcast : ((w * h / 2 : ℕ) : ℝ) = ((w * h : ℕ) : ℝ) / 2 := by
    have h2 : (2 : ℕ) ∣ w * h := Nat.dvd_of_mod_eq_zero heven
    rw [Nat.cast_div h2 (by norm_num)]
    norm_num
  have hhalf : ((w * h / 2 : ℕ) : ℝ) / ((w * h : ℕ) : ℝ) = 1 / 2 := by
    rw [hcast, div_right_comm, div_self (ne_of_gt hnR)]
  have hlogb : Real.logb 2 (1 / 2 : ℝ) = -1 := by
    rw [show (1 / 2 : ℝ) = (2 : ℝ)⁻¹ by norm_num, Real.logb_inv,
      Real.logb_self_eq_one (by norm_num)]
  unfold calculate_entropy entropyOfHist
  have hsub : ({0, 255} : Finset ℕ) ⊆ Finset.range 256 := by decide
  rw [show ∑ k ∈ Finset.range 256,
      (if 0 < histCount (fullScanGrays data) k then
        -((histCount (fullScanGrays data) k : ℝ) / ((w * h : ℕ) : ℝ)
          * Real.logb 2 ((histCount (fullScanGrays data) k : ℝ) / ((w * h : ℕ) : ℝ)))
      else 0)
      = ∑ k ∈ ({0, 255} : Finset ℕ),
      (if 0 < histCount (fullScanGrays data) k then
        -((histCount (fullScanGrays data) k : ℝ) / ((w * h : ℕ) : ℝ)
          * Real.logb 2 ((histCount (fullScanGrays data) k : ℝ) / ((w * h : ℕ) : ℝ)))
      else 0) from ?_]
  · rw [Finset.sum_pair (by decide : (0 : ℕ) ≠ 255), hc0, hc255, if_pos hn2, hhalf, hlogb]
    norm_num
  · symm
    apply Finset.sum_subset hsub
    intro k _ hknot
    simp only [Finset.mem_insert, Finset.mem_singleton] at hknot
    push_neg at hknot
    rw [hother k hknot.1 hknot.2]
    simp

/-- Witness for two_tone_entropy_one: one black and one white pixel in a 2x1 image. -/
theorem two_tone_entropy_one_witness :
    histCount (fullScanGrays [0, 0, 0, 255, 255, 255, 255, 255]) 0 = 2 * 1 / 2 ∧
    histCount (fullScanGrays [0, 0, 0, 255, 255, 255, 255, 255]) 255 = 2 * 1 / 2 ∧
    calculate_entropy [0, 0, 0, 255, 255, 255, 255, 255] 2 1 = 1 :=
  two_tone_entropy_one [0, 0, 0, 255, 255, 255, 255, 255] 2 1
    (by decide) (by decide) (by decide) (by decide) (by decide) (by decide)

end EntropyWasm
